import Mathlib

/-!
Shallow embedding of the reconciliation matching engine of
`src/services/reconciliationService.ts` (repository Dynamic-Reco).

Modelling decisions, each tied to the source:

* Record fields: `InvoiceData` keeps the five fields the engine reads
  (`GSTIN`, `Name`, `'Invoice no.'`, `'Invoice date'`, `'taxable value'`).
  The passthrough fields `_originalRow` / `_normalizedHeaders` are never read
  by the engine and are omitted.
* JS numbers (`taxable value`) are modelled as `Rat`; the tolerances
  (`< 0.001`, `<= 1.0`) are exact rational comparisons.
* The `'Invoice date'` field has type `any` in the source; the engine only
  observes (a) whether the raw value is `null`/`undefined` and (b) the result
  of `new Date(raw)`.  `DateVal` records exactly those observations:
  `jnull` (JS `null`: nullish, but `new Date(null)` is epoch 0), `undef`
  (JS `undefined`: nullish and unparseable), `invalid` (a non-nullish value
  that fails to parse, e.g. `''`), `valid ms` (parses to `ms` epoch
  milliseconds).  `toDateString` abstracts `Date.prototype.toDateString` as
  the calendar day (local timezone abstracted to UTC); invalid dates give the
  string "Invalid Date" exactly as in JS.
* JS strings are Lean `String`s.  `trim` / `toUpperCase` / `toLowerCase`
  are spelled out over the character list (`String.data`); the `\s` class of
  the regexes is modelled on its ASCII fragment.
* The JS `Map` used for the B-side key lookup is an association list with JS
  `Map` semantics: `set` replaces in place keeping insertion order, `delete`
  removes the entry, `values()` is the list of values in insertion order.
* The `Set<number>` of still-available indices into `unmatchedB` is a list of
  naturals in insertion order (ascending); `delete` removes the element.
* `forEach` / `for..of` loops with mutable locals become `List.foldl` over an
  explicit state (`Pass1State`, `Pass2State`); the best-candidate scan of
  Pass 2 becomes the accumulator recursion `bestMatchAux`.
-/

/- Core Lean marks `Rat.sub` irreducible, which blocks `decide` on the
value-tolerance predicates below; restore the default reducibility locally so
concrete runs of the engine evaluate. -/
attribute [local semireducible] Rat.sub Rat.mul Rat.add Rat.inv

/-- ASCII fragment of the JS `\s` character class (used by `trim` and by the
`[\s.,-]` regex of `areNamesSimilar`). -/
def jsWhitespaceChar (c : Char) : Bool :=
  c = ' ' || c = '\t' || c = '\n' || c = '\r' || c = '\x0b' || c = '\x0c'

/-- JS `String.prototype.trim`: strip whitespace from both ends. -/
def jsTrim (l : List Char) : List Char :=
  ((l.dropWhile jsWhitespaceChar).reverse.dropWhile jsWhitespaceChar).reverse

/-- JS `String.prototype.toUpperCase` (ASCII). -/
def jsToUpper (l : List Char) : List Char := l.map Char.toUpper

/-- JS `String.prototype.toLowerCase` (ASCII). -/
def jsToLower (l : List Char) : List Char := l.map Char.toLower

/-- `s.trim().toUpperCase()`, the normalization applied to GSTINs and invoice
numbers throughout the source. -/
def normStr (s : String) : String := String.mk (jsToUpper (jsTrim s.data))

/-- A character removed by `simplify` in `areNamesSimilar`
(regex `/[\s.,-]/g`). -/
def strippedNameChar (c : Char) : Bool :=
  jsWhitespaceChar c || c = '.' || c = ',' || c = '-'

/-- The `simplify` helper of `areNamesSimilar`: lower-case and remove
whitespace and the punctuation `.`, `,`, `-`. -/
def simplifyName (s : String) : String :=
  String.mk ((jsToLower s.data).filter (fun c => !(strippedNameChar c)))

/-- `needle` is a prefix of `hay` (characters). -/
def strStartsWith : List Char → List Char → Bool
  | _, [] => true
  | [], _ :: _ => false
  | a :: as, b :: bs => if a = b then strStartsWith as bs else false

/-- JS `String.prototype.includes`: `needle` occurs contiguously in `hay`. -/
def strContains : List Char → List Char → Bool
  | [], needle => needle.isEmpty
  | c :: t, needle => strStartsWith (c :: t) needle || strContains t needle

/-- `areNamesSimilar` from the source: false on empty inputs, false when a
simplified name is empty, otherwise mutual-substring test. -/
def areNamesSimilar (nameA nameB : String) : Bool :=
  if nameA = "" ∨ nameB = "" then false
  else
    let simpleA := simplifyName nameA
    let simpleB := simplifyName nameB
    if simpleA = "" ∨ simpleB = "" then false
    else strContains simpleA.data simpleB.data || strContains simpleB.data simpleA.data

/-- Observable content of the raw `'Invoice date'` cell (see the header
comment). -/
inductive DateVal where
  | jnull
  | undef
  | invalid
  | valid (ms : Int)
  deriving DecidableEq

/-- `raw === null || raw === undefined`. -/
def DateVal.isNullish : DateVal → Bool
  | .jnull => true
  | .undef => true
  | _ => false

/-- `new Date(raw)`: `none` when the resulting `Date` is invalid
(`isNaN(d.getTime())`), otherwise the epoch milliseconds. -/
def newDateMs : DateVal → Option Int
  | .jnull => some 0
  | .undef => none
  | .invalid => none
  | .valid ms => some ms

/-- `Date.prototype.toDateString`, abstracted to the (UTC) calendar day; an
invalid date stringifies to "Invalid Date" as in JS. -/
def toDateString : Option Int → String
  | none => "Invalid Date"
  | some ms => "day " ++ toString (Int.fdiv ms 86400000)

/-- `areDatesClose` from the source (daysTolerance defaults to 7; no caller
overrides it): false on nullish or unparseable input, otherwise
`Math.ceil(|ms difference| / msPerDay) <= 7`. -/
def areDatesClose (dateA dateB : DateVal) : Bool :=
  if dateA.isNullish ∨ dateB.isNullish then false
  else
    match newDateMs dateA, newDateMs dateB with
    | some m1, some m2 =>
      let diffTime := (m2 - m1).natAbs
      let diffDays := (diffTime + 86399999) / 86400000
      decide (diffDays ≤ 7)
    | _, _ => false

/-- JS `Math.abs`. -/
def ratAbs (q : Rat) : Rat := if q < 0 then -q else q

/-- `areValuesClose` (tolerance defaults to 1.0; no caller overrides it). -/
def areValuesClose (valA valB : Rat) : Bool := decide (ratAbs (valA - valB) ≤ 1)

/-- `areValuesEqual`: equality within 0.001. -/
def areValuesEqual (valA valB : Rat) : Bool :=
  decide (ratAbs (valA - valB) < 1/1000)

/-- One normalized invoice record (`InvoiceData` of `src/types.ts`, minus the
two passthrough fields the engine never reads). -/
structure InvoiceData where
  gstin : String
  name : String
  invoiceNo : String
  invoiceDate : DateVal
  taxableValue : Rat
  deriving DecidableEq

instance : Inhabited InvoiceData :=
  ⟨{ gstin := "", name := "", invoiceNo := "", invoiceDate := DateVal.invalid,
     taxableValue := 0 }⟩

/-- `createKey` from the source: `` `${gstin}-${invoiceNo}` `` after
trim/uppercase (the `?? ''` fallbacks are identities on `String`). -/
def createKey (item : InvoiceData) : String :=
  normStr item.gstin ++ "-" ++ normStr item.invoiceNo

/-- A record whose key passes the source's guard `key && key !== '-'`
(the key always contains a `-`, so it is never the empty string; the guard
fails exactly on the `"-"` sentinel, i.e. both fields blank). -/
def validRecord (item : InvoiceData) : Bool :=
  if createKey item = "" ∨ createKey item = "-" then false else true

/-- `getDiffs` from the source, preserving push order.  Note `new Date(x)` is
always a truthy object in JS, so the `!d1 || !d2` disjuncts never fire; the
date test is the `toDateString()` comparison alone. -/
def getDiffs (itemA itemB : InvoiceData) : List String :=
  (if normStr itemA.gstin = normStr itemB.gstin then [] else ["GSTIN"])
  ++ (if normStr itemA.invoiceNo = normStr itemB.invoiceNo then [] else ["Invoice no."])
  ++ (if areNamesSimilar itemA.name itemB.name then [] else ["Name"])
  ++ (if toDateString (newDateMs itemA.invoiceDate)
        = toDateString (newDateMs itemB.invoiceDate) then [] else ["Invoice date"])
  ++ (if areValuesEqual itemA.taxableValue itemB.taxableValue then []
      else ["taxable value"])

/-- The `Remark` enum of `src/types.ts`. -/
inductive Remark where
  | MATCH
  | PARTIALLY_MATCHED
  | NOT_IN_B
  | NOT_IN_A
  deriving DecidableEq

/-- The string value of each `Remark` enum member in `src/types.ts`. -/
def remarkString : Remark → String
  | .MATCH => "Match"
  | .PARTIALLY_MATCHED => "Partially Matched"
  | .NOT_IN_B => "In File A only"
  | .NOT_IN_A => "In File B only"

/-- `'High' | 'Low'` match confidence. -/
inductive Confidence where
  | High
  | Low
  deriving DecidableEq

/-- `ReconciliationResult` of `src/types.ts`; optional fields default to
`none` (JS `undefined`). -/
structure ReconciliationResult where
  key : String
  dataA : Option InvoiceData := none
  dataB : Option InvoiceData := none
  remark : Remark
  matchConfidence : Option Confidence := none
  diffs : Option (List String) := none
  deriving DecidableEq

instance : Inhabited ReconciliationResult :=
  ⟨{ key := "", remark := Remark.MATCH }⟩

/-- The B-side lookup: a JS `Map<string, InvoiceData>` as an association list
in insertion order. -/
abbrev BMap := List (String × InvoiceData)

/-- `Map.prototype.get`. -/
def mapGet : BMap → String → Option InvoiceData
  | [], _ => none
  | e :: t, k => if e.1 = k then some e.2 else mapGet t k

/-- `Map.prototype.set`: replace in place when the key exists (keeping its
insertion position), else append. -/
def mapSet : BMap → String → InvoiceData → BMap
  | [], k, v => [(k, v)]
  | e :: t, k, v => if e.1 = k then (k, v) :: t else e :: mapSet t k v

/-- `Map.prototype.delete`. -/
def mapDelete : BMap → String → BMap
  | [], _ => []
  | e :: t, k => if e.1 = k then t else e :: mapDelete t k

/-- One iteration of the `dataB.forEach` loop that builds the lookup: skip
records failing `key && key !== '-'`, otherwise `mapB.set(key, item)`. -/
def buildStep (m : BMap) (item : InvoiceData) : BMap :=
  let key := createKey item
  if key ≠ "" ∧ key ≠ "-" then mapSet m key item else m

/-- Building `mapB` from `dataB`; last write wins on duplicate keys. -/
def buildMapB (dataB : List InvoiceData) : BMap :=
  dataB.foldl buildStep []

/-- State threaded through the Pass-1 `forEach` loop over `dataA`. -/
structure Pass1State where
  results : List ReconciliationResult
  unmatchedA : List InvoiceData
  mapB : BMap

/-- One iteration of the Pass-1 loop.  An invalid key `return`s (skipping the
record entirely); a hit emits a High-confidence outcome and deletes the key;
a miss defers the record to `unmatchedA`. -/
def pass1Step (s : Pass1State) (itemA : InvoiceData) : Pass1State :=
  let key := createKey itemA
  if key = "" ∨ key = "-" then s
  else
    match mapGet s.mapB key with
    | some itemB =>
      { results := s.results ++
          [{ key := key
           , dataA := some itemA
           , dataB := some itemB
           , remark := if areValuesEqual itemA.taxableValue itemB.taxableValue
              then Remark.MATCH else Remark.PARTIALLY_MATCHED
           , matchConfidence := some Confidence.High
           , diffs := if 0 < (getDiffs itemA itemB).length
              then some (getDiffs itemA itemB) else none }]
      , unmatchedA := s.unmatchedA
      , mapB := mapDelete s.mapB key }
    | none => { s with unmatchedA := s.unmatchedA ++ [itemA] }

/-- Pass 1 over all of `dataA` against a pre-built lookup. -/
def pass1 (dataA : List InvoiceData) (m : BMap) : Pass1State :=
  dataA.foldl pass1Step { results := [], unmatchedA := [], mapB := m }

/-- Fuzzy-pass similarity score:
`2*(names similar) + 1*(values close) + 1*(dates close)`. -/
def scoreOf (itemA itemB : InvoiceData) : Nat :=
  (if areNamesSimilar itemA.name itemB.name then 2 else 0)
  + (if areValuesClose itemA.taxableValue itemB.taxableValue then 1 else 0)
  + (if areDatesClose itemA.invoiceDate itemB.invoiceDate then 1 else 0)

/-- The mutable `bestMatch` local of the Pass-2 scan. -/
structure BestMatch where
  item : InvoiceData
  index : Nat
  score : Nat
  deriving DecidableEq

/-- The `for (const i of unmatchedBIndexes)` scan: skip candidates whose
normalized GSTIN differs, admit scores `>= 2`, update only on a strictly
larger score. -/
def bestMatchAux (itemA : InvoiceData) (uB : List InvoiceData) :
    Option BestMatch → List Nat → Option BestMatch
  | best, [] => best
  | best, i :: rest =>
    bestMatchAux itemA uB
      (if normStr itemA.gstin ≠ normStr (uB.getD i default).gstin then best
       else if 2 ≤ scoreOf itemA (uB.getD i default) then
         match best with
         | none => some ⟨uB.getD i default, i, scoreOf itemA (uB.getD i default)⟩
         | some b =>
           if b.score < scoreOf itemA (uB.getD i default)
           then some ⟨uB.getD i default, i, scoreOf itemA (uB.getD i default)⟩
           else some b
       else best)
      rest

/-- The whole scan, starting from `bestMatch = null`. -/
def bestMatch (itemA : InvoiceData) (uB : List InvoiceData)
    (avail : List Nat) : Option BestMatch :=
  bestMatchAux itemA uB none avail

/-- `Set.prototype.delete` on the index set (kept in insertion order). -/
def removeElem (i : Nat) : List Nat → List Nat
  | [] => []
  | j :: t => if j = i then t else j :: removeElem i t

/-- State threaded through the Pass-2 `forEach` loop over `unmatchedA`. -/
structure Pass2State where
  results : List ReconciliationResult
  finalA : List InvoiceData
  avail : List Nat

/-- One iteration of the Pass-2 loop: emit a Low-confidence outcome and
consume the winning candidate, or defer the A record to `finalUnmatchedA`. -/
def pass2Step (uB : List InvoiceData) (s : Pass2State) (itemA : InvoiceData) :
    Pass2State :=
  match bestMatch itemA uB s.avail with
  | some bm =>
    { results := s.results ++
        [{ key := "fuzzy-" ++ createKey itemA ++ "-" ++ createKey bm.item
         , dataA := some itemA
         , dataB := some bm.item
         , remark := Remark.PARTIALLY_MATCHED
         , matchConfidence := some Confidence.Low
         , diffs := some (getDiffs itemA bm.item) }]
    , finalA := s.finalA
    , avail := removeElem bm.index s.avail }
  | none => { s with finalA := s.finalA ++ [itemA] }

/-- Pass 2 over the unmatched-A pool; the index set starts as all positions
of `unmatchedB`. -/
def pass2 (uB : List InvoiceData) (uA : List InvoiceData) : Pass2State :=
  uA.foldl (pass2Step uB) { results := [], finalA := [], avail := List.range uB.length }

/-- Pass-1 output for the given inputs. -/
def pass1Of (dataA dataB : List InvoiceData) : Pass1State :=
  pass1 dataA (buildMapB dataB)

/-- `Array.from(mapB.values())` after Pass 1. -/
def unmatchedBOf (dataA dataB : List InvoiceData) : List InvoiceData :=
  (pass1Of dataA dataB).mapB.map Prod.snd

/-- Pass-2 output for the given inputs. -/
def pass2Of (dataA dataB : List InvoiceData) : Pass2State :=
  pass2 (unmatchedBOf dataA dataB) (pass1Of dataA dataB).unmatchedA

/-- `reconcileFiles` from the source: Pass-1 outcomes, then Pass-2 outcomes,
then leftover-A rows (`Remark.NOT_IN_B`), then leftover-B rows
(`Remark.NOT_IN_A`). -/
def reconcileFiles (dataA dataB : List InvoiceData) : List ReconciliationResult :=
  let unmatchedB := unmatchedBOf dataA dataB
  let s2 := pass2Of dataA dataB
  (pass1Of dataA dataB).results ++ s2.results
    ++ s2.finalA.map
        (fun itemA => { key := createKey itemA, dataA := some itemA,
                        remark := Remark.NOT_IN_B })
    ++ (s2.avail.map (fun i => unmatchedB.getD i default)).map
        (fun itemB => { key := createKey itemB, dataB := some itemB,
                        remark := Remark.NOT_IN_A })

/-!
Counting helpers: multiplicity of a record among a list of records, among the
`dataA` / `dataB` fields of outcomes, and among the values of the lookup.
-/

/-- Multiplicity of a record in a list of records. -/
def countRec (a : InvoiceData) : List InvoiceData → Nat
  | [] => 0
  | x :: t => (if x = a then 1 else 0) + countRec a t

/-- Number of outcomes carrying `a` as `dataA`. -/
def countDataA (a : InvoiceData) : List ReconciliationResult → Nat
  | [] => 0
  | r :: t => (if r.dataA = some a then 1 else 0) + countDataA a t

/-- Number of outcomes carrying `b` as `dataB`. -/
def countDataB (b : InvoiceData) : List ReconciliationResult → Nat
  | [] => 0
  | r :: t => (if r.dataB = some b then 1 else 0) + countDataB b t

/-- Multiplicity of a record among the values of the lookup. -/
def countVal (b : InvoiceData) : BMap → Nat
  | [] => 0
  | e :: t => (if e.2 = b then 1 else 0) + countVal b t

/-- Keys of the lookup are pairwise distinct. -/
abbrev keysNodup (m : BMap) : Prop := List.Pairwise (fun e f => e.1 ≠ f.1) m

/-- `x` does not share a valid key with any element of the list. -/
def noClashWith (x : InvoiceData) : List InvoiceData → Bool
  | [] => true
  | y :: t =>
    (if validRecord x = true ∧ validRecord y = true ∧ createKey x = createKey y
     then false else true) && noClashWith x t

/-- No two records of the list share a valid match key (the documented
input precondition of the engine). -/
def bKeysNodup : List InvoiceData → Bool
  | [] => true
  | x :: t => noClashWith x t && bKeysNodup t

/-- Every occurrence of the record `b` in the list is followed by a later
record with the same match key (so `b` is overwritten in the lookup). -/
def overwrittenIn (b : InvoiceData) : List InvoiceData → Bool
  | [] => true
  | x :: t =>
    (if x = b then t.any (fun y => decide (createKey y = createKey b)) else true)
      && overwrittenIn b t

/-- Shape invariant satisfied by every outcome the engine emits: paired
outcomes are either Pass-1 (High) rows, whose remark is decided by
`areValuesEqual` alone, or Pass-2 (Low) rows, which are always
`PARTIALLY_MATCHED`, GSTIN-equal and of score at least 2; one-sided rows
carry the corresponding residual remark. -/
def ShapeOK (r : ReconciliationResult) : Prop :=
  match r.dataA, r.dataB with
  | some a, some b =>
      (r.matchConfidence = some Confidence.High
        ∧ r.remark = (if areValuesEqual a.taxableValue b.taxableValue
            then Remark.MATCH else Remark.PARTIALLY_MATCHED)
        ∧ r.diffs = (if 0 < (getDiffs a b).length
            then some (getDiffs a b) else none))
    ∨ (r.matchConfidence = some Confidence.Low
        ∧ r.remark = Remark.PARTIALLY_MATCHED
        ∧ normStr a.gstin = normStr b.gstin
        ∧ 2 ≤ scoreOf a b
        ∧ r.diffs = some (getDiffs a b))
  | some _, none => r.remark = Remark.NOT_IN_B ∧ r.matchConfidence = none
  | none, some _ => r.remark = Remark.NOT_IN_A ∧ r.matchConfidence = none
  | none, none => False

/-- Shorthand for building a concrete record in examples. -/
def mkRec (g n i : String) (d : DateVal) (v : Rat) : InvoiceData :=
  { gstin := g, name := n, invoiceNo := i, invoiceDate := d, taxableValue := v }

/-- Matched pair used to exercise the coverage totals. -/
def w1a : InvoiceData := mkRec "G1" "ACME" "I1" (DateVal.valid 0) 100

/-- B-side partner of `w1a` (same match key and value). -/
def w1b : InvoiceData := mkRec "G1" "ACME" "I1" (DateVal.valid 0) 100

/-- A record with blank GSTIN and invoice number: its key is the `"-"`
sentinel. -/
def badRec : InvoiceData := mkRec "" "NO KEYS" "" DateVal.invalid 5

/-- A record whose GSTIN and invoice number are whitespace only, so both
trim to empty and the key is the `"-"` sentinel. -/
def badRec2 : InvoiceData := mkRec "  " "BLANK" " " DateVal.invalid 3

/-- Another sentinel-key record, with an otherwise perfectly good date and
value. -/
def badRec9 : InvoiceData := mkRec "" "ORPHAN" "" (DateVal.valid 86400000) 9

/-- Pass-1 pair with equal key and value but dissimilar names. -/
def w3a : InvoiceData := mkRec "G3" "ALPHA" "I3" (DateVal.valid 0) 100

/-- Partner of `w3a`. -/
def w3b : InvoiceData := mkRec "G3" "BETA" "I3" (DateVal.valid 0) 100

/-- Fuzzy-pass pair: same GSTIN, different invoice numbers, similar names. -/
def w4a : InvoiceData := mkRec "G4" "ACME LTD" "I4" (DateVal.valid 0) 100

/-- Partner of `w4a`. -/
def w4b : InvoiceData := mkRec "G4" "ACME" "I5" (DateVal.valid 0) 100

/-- Scan record for the tie-break example. -/
def w5A : InvoiceData := mkRec "G" "AAA" "I1" DateVal.invalid 100

/-- Two candidates with equal score 2 (name-similar only) for `w5A`. -/
def w5B : List InvoiceData :=
  [mkRec "G" "XAAAX" "I8" DateVal.invalid 500,
   mkRec "G" "ZAAAZ" "I9" DateVal.invalid 500]

/-- Record with an unparseable invoice date. -/
def w7a : InvoiceData := mkRec "G7" "NAME" "I7" DateVal.invalid 50

/-- Another record with an unparseable invoice date. -/
def w7b : InvoiceData := mkRec "G7" "NAME" "I7" DateVal.invalid 50

/-- Record with a parseable invoice date. -/
def w7c : InvoiceData := mkRec "G7" "NAME" "I7" (DateVal.valid 0) 50

/-- Two B-side records sharing the valid key `G2-I2`. -/
def w8b1 : InvoiceData := mkRec "G2" "FIRST" "I2" DateVal.invalid 5

/-- Later record with the same key as `w8b1`. -/
def w8b2 : InvoiceData := mkRec "G2" "SECOND" "I2" DateVal.invalid 7

/-- A valid record with no possible B partner. -/
def w9a : InvoiceData := mkRec "G9" "SOLO" "I9" (DateVal.valid 0) 42

theorem countRec_append (a : InvoiceData) (l₁ l₂ : List InvoiceData) :
    countRec a (l₁ ++ l₂) = countRec a l₁ + countRec a l₂ := by
  induction l₁ with
  | nil => simp [countRec]
  | cons x t ih => simp [countRec, ih, Nat.add_assoc]

theorem countDataA_append (a : InvoiceData) (l₁ l₂ : List ReconciliationResult) :
    countDataA a (l₁ ++ l₂) = countDataA a l₁ + countDataA a l₂ := by
  induction l₁ with
  | nil => simp [countDataA]
  | cons x t ih => simp [countDataA, ih, Nat.add_assoc]

theorem countDataB_append (b : InvoiceData) (l₁ l₂ : List ReconciliationResult) :
    countDataB b (l₁ ++ l₂) = countDataB b l₁ + countDataB b l₂ := by
  induction l₁ with
  | nil => simp [countDataB]
  | cons x t ih => simp [countDataB, ih, Nat.add_assoc]

theorem countRec_pos_of_mem {a : InvoiceData} {l : List InvoiceData}
    (h : a ∈ l) : 0 < countRec a l := by
  induction l with
  | nil => cases h
  | cons x t ih =>
    rcases List.mem_cons.mp h with h1 | h2
    · simp [countRec, h1]
    · have := ih h2
      simp [countRec]
      omega

theorem countRec_le_of_count {a : InvoiceData} {l : List InvoiceData}
    (p : InvoiceData → Bool) : countRec a (l.filter p) ≤ countRec a l := by
  induction l with
  | nil => simp [countRec]
  | cons x t ih =>
    by_cases hp : p x
    · simp [List.filter_cons, hp, countRec]
      omega
    · simp [List.filter_cons, hp, countRec]
      omega

theorem countRec_filter_not {a : InvoiceData} {l : List InvoiceData}
    {p : InvoiceData → Bool} (hp : p a = false) :
    countRec a (l.filter p) = 0 := by
  induction l with
  | nil => simp [countRec]
  | cons x t ih =>
    by_cases hx : p x
    · have hxa : ¬ x = a := fun h => by rw [h, hp] at hx; cases hx
      simp [List.filter_cons, hx, countRec, hxa, ih]
    · simp [List.filter_cons, hx, ih]

theorem countRec_filter_pos {a : InvoiceData} {l : List InvoiceData}
    {p : InvoiceData → Bool} (hm : a ∈ l) (hp : p a = true) :
    0 < countRec a (l.filter p) :=
  countRec_pos_of_mem (List.mem_filter.mpr ⟨hm, hp⟩)

theorem countDataA_eq_zero {a : InvoiceData} {l : List ReconciliationResult}
    (h : countDataA a l = 0) : ∀ r ∈ l, r.dataA ≠ some a := by
  induction l with
  | nil => intro r hr; cases hr
  | cons x t ih =>
    intro r hr
    rcases List.mem_cons.mp hr with h1 | h2
    · intro hx
      subst h1
      simp [countDataA, hx] at h
    · apply ih _ r h2
      simp [countDataA] at h
      omega

theorem countDataB_eq_zero {b : InvoiceData} {l : List ReconciliationResult}
    (h : countDataB b l = 0) : ∀ r ∈ l, r.dataB ≠ some b := by
  induction l with
  | nil => intro r hr; cases hr
  | cons x t ih =>
    intro r hr
    rcases List.mem_cons.mp hr with h1 | h2
    · intro hx
      subst h1
      simp [countDataB, hx] at h
    · apply ih _ r h2
      simp [countDataB] at h
      omega

theorem countDataA_pos {a : InvoiceData} {l : List ReconciliationResult}
    (h : 0 < countDataA a l) : ∃ r ∈ l, r.dataA = some a := by
  induction l with
  | nil => simp [countDataA] at h
  | cons x t ih =>
    by_cases hx : x.dataA = some a
    · exact ⟨x, List.mem_cons_self x t, hx⟩
    · simp [countDataA, hx] at h
      rcases ih h with ⟨r, hr, hra⟩
      exact ⟨r, List.mem_cons_of_mem x hr, hra⟩

theorem countDataB_pos {b : InvoiceData} {l : List ReconciliationResult}
    (h : 0 < countDataB b l) : ∃ r ∈ l, r.dataB = some b := by
  induction l with
  | nil => simp [countDataB] at h
  | cons x t ih =>
    by_cases hx : x.dataB = some b
    · exact ⟨x, List.mem_cons_self x t, hx⟩
    · simp [countDataB, hx] at h
      rcases ih h with ⟨r, hr, hrb⟩
      exact ⟨r, List.mem_cons_of_mem x hr, hrb⟩

/-!
Lookup lemmas.  `mapGet` / `mapSet` / `mapDelete` all act on the first entry
with the given key, so they are mutually consistent without any
distinct-keys hypothesis; `buildMapB` additionally keeps keys pairwise
distinct, which the value-provenance lemma below uses.
-/

theorem mapGet_mem {m : BMap} {k : String} {v : InvoiceData}
    (h : mapGet m k = some v) : (k, v) ∈ m := by
  induction m with
  | nil => simp [mapGet] at h
  | cons e t ih =>
    obtain ⟨k1, v1⟩ := e
    by_cases he : k1 = k
    · subst he
      simp [mapGet] at h
      subst h
      exact List.mem_cons_self _ _
    · simp [mapGet, he] at h
      exact List.mem_cons_of_mem _ (ih h)

theorem countVal_mapDelete {m : BMap} {k : String} {v : InvoiceData}
    (h : mapGet m k = some v) (b : InvoiceData) :
    countVal b m = countVal b (mapDelete m k) + (if v = b then 1 else 0) := by
  induction m with
  | nil => simp [mapGet] at h
  | cons e t ih =>
    by_cases he : e.1 = k
    · simp [mapGet, he] at h
      simp [mapDelete, he, countVal, h]
      omega
    · simp [mapGet, he] at h
      simp [mapDelete, he, countVal, ih h]
      omega

theorem countVal_mapSet (m : BMap) (k : String) (v b : InvoiceData) :
    countVal b (mapSet m k v) ≤ countVal b m + (if v = b then 1 else 0) := by
  induction m with
  | nil => simp [mapSet, countVal]
  | cons e t ih =>
    by_cases he : e.1 = k
    · simp [mapSet, he, countVal]
      omega
    · simp [mapSet, he, countVal]
      omega

theorem mapSet_append {m : BMap} {k : String} (v : InvoiceData)
    (h : ∀ e ∈ m, e.1 ≠ k) : mapSet m k v = m ++ [(k, v)] := by
  induction m with
  | nil => simp [mapSet]
  | cons e t ih =>
    have he : e.1 ≠ k := h e (List.mem_cons_self e t)
    simp [mapSet, he]
    exact ih (fun f hf => h f (List.mem_cons_of_mem e hf))

theorem countVal_append (b : InvoiceData) (m₁ m₂ : BMap) :
    countVal b (m₁ ++ m₂) = countVal b m₁ + countVal b m₂ := by
  induction m₁ with
  | nil => simp [countVal]
  | cons e t ih => simp [countVal, ih, Nat.add_assoc]

theorem mapSet_mem {m : BMap} {k : String} {v : InvoiceData} {e : String × InvoiceData}
    (hn : keysNodup m) (h : e ∈ mapSet m k v) :
    e = (k, v) ∨ (e ∈ m ∧ e.1 ≠ k) := by
  induction m with
  | nil =>
    simp [mapSet] at h
    exact Or.inl h
  | cons p t ih =>
    by_cases hp : p.1 = k
    · simp only [mapSet, if_pos hp, List.mem_cons] at h
      rcases h with h | h
      · exact Or.inl h
      · right
        refine ⟨List.mem_cons_of_mem p h, ?_⟩
        have hne := (List.pairwise_cons.mp hn).1 e h
        intro hc
        exact hne (by rw [hp]; exact hc.symm)
    · simp only [mapSet, if_neg hp, List.mem_cons] at h
      rcases h with h | h
      · rw [h]
        exact Or.inr ⟨List.mem_cons_self p t, hp⟩
      · rcases ih (List.pairwise_cons.mp hn).2 h with h1 | h2
        · exact Or.inl h1
        · exact Or.inr ⟨List.mem_cons_of_mem p h2.1, h2.2⟩

theorem keysNodup_mapSet {m : BMap} (k : String) (v : InvoiceData)
    (hn : keysNodup m) : keysNodup (mapSet m k v) := by
  induction m with
  | nil => simp [mapSet, keysNodup]
  | cons p t ih =>
    rcases List.pairwise_cons.mp hn with ⟨hp, ht⟩
    by_cases hpk : p.1 = k
    · simp only [mapSet, if_pos hpk]
      refine List.pairwise_cons.mpr ⟨?_, ht⟩
      intro e he hc
      exact hp e he (by rw [hpk]; exact hc)
    · simp only [mapSet, if_neg hpk]
      refine List.pairwise_cons.mpr ⟨?_, ih ht⟩
      intro e he
      rcases mapSet_mem ht he with h1 | h2
      · rw [h1]
        exact hpk
      · exact hp e h2.1

/-!
Lemmas about `buildMapB`: key distinctness, value multiplicities, and value
provenance (each stored value is the last record of its key).
-/

theorem validRecord_false {x : InvoiceData} (h : validRecord x = false) :
    createKey x = "" ∨ createKey x = "-" := by
  by_cases hp : createKey x = "" ∨ createKey x = "-"
  · exact hp
  · simp [validRecord, hp] at h

theorem validRecord_true {x : InvoiceData} (h : validRecord x = true) :
    ¬(createKey x = "" ∨ createKey x = "-") := by
  intro hp
  simp [validRecord, hp] at h

theorem key_ne_of_valid_invalid {a c : InvoiceData}
    (ha : validRecord a = true) (hc : validRecord c = false) :
    createKey c ≠ createKey a := by
  intro h
  exact validRecord_true ha (h ▸ validRecord_false hc)

theorem buildStep_valid (m : BMap) {x : InvoiceData} (h : validRecord x = true) :
    buildStep m x = mapSet m (createKey x) x := by
  have hp := validRecord_true h
  rw [not_or] at hp
  simp [buildStep, hp.1, hp.2]

theorem buildStep_invalid (m : BMap) {x : InvoiceData} (h : validRecord x = false) :
    buildStep m x = m := by
  rcases validRecord_false h with hp | hp <;> simp [buildStep, hp]

theorem keysNodup_foldB : ∀ (B : List InvoiceData) (m : BMap),
    keysNodup m → keysNodup (B.foldl buildStep m) := by
  intro B
  induction B with
  | nil => intro m hm; simpa using hm
  | cons x t ih =>
    intro m hm
    rw [List.foldl_cons]
    apply ih
    by_cases hv : validRecord x = true
    · rw [buildStep_valid m hv]
      exact keysNodup_mapSet _ _ hm
    · rw [buildStep_invalid m (by revert hv; cases validRecord x <;> simp)]
      exact hm

theorem keysNodup_buildMapB (B : List InvoiceData) : keysNodup (buildMapB B) :=
  keysNodup_foldB B [] (by simp [keysNodup])

theorem countVal_foldB_le (b : InvoiceData) : ∀ (B : List InvoiceData) (m : BMap),
    countVal b (B.foldl buildStep m)
      ≤ countVal b m + countRec b (B.filter validRecord) := by
  intro B
  induction B with
  | nil => simp [countRec]
  | cons x t ih =>
    intro m
    rw [List.foldl_cons]
    by_cases hv : validRecord x = true
    · rw [buildStep_valid m hv]
      have h1 := ih (mapSet m (createKey x) x)
      have h2 := countVal_mapSet m (createKey x) x b
      rw [List.filter_cons, if_pos hv]
      simp only [countRec]
      omega
    · have hv' : validRecord x = false := by revert hv; cases validRecord x <;> simp
      rw [buildStep_invalid m hv', List.filter_cons, if_neg (by simp [hv'])]
      exact ih m

theorem countVal_buildMapB_le (b : InvoiceData) (B : List InvoiceData) :
    countVal b (buildMapB B) ≤ countRec b (B.filter validRecord) := by
  have := countVal_foldB_le b B []
  simpa [buildMapB, countVal] using this

theorem noClashWith_spec {x : InvoiceData} : ∀ {t : List InvoiceData},
    noClashWith x t = true → ∀ y ∈ t, validRecord x = true →
    validRecord y = true → createKey x ≠ createKey y := by
  intro t
  induction t with
  | nil => intro _ y hy; cases hy
  | cons z t ih =>
    intro h y hy hvx hvy
    rw [noClashWith, Bool.and_eq_true] at h
    rcases List.mem_cons.mp hy with h1 | h2
    · subst h1
      intro hk
      have h1 := h.1
      rw [if_pos ⟨hvx, hvy, hk⟩] at h1
      cases h1
    · exact ih h.2 y h2 hvx hvy

theorem countVal_foldB_eq (b : InvoiceData) : ∀ (B : List InvoiceData) (m : BMap),
    bKeysNodup B = true →
    (∀ e ∈ m, ∀ x ∈ B, validRecord x = true → e.1 ≠ createKey x) →
    countVal b (B.foldl buildStep m)
      = countVal b m + countRec b (B.filter validRecord) := by
  intro B
  induction B with
  | nil => simp [countRec]
  | cons x t ih =>
    intro m hnd hdis
    rw [bKeysNodup, Bool.and_eq_true] at hnd
    rw [List.foldl_cons]
    by_cases hv : validRecord x = true
    · rw [buildStep_valid m hv]
      have hset : mapSet m (createKey x) x = m ++ [(createKey x, x)] :=
        mapSet_append x
          (fun e he => hdis e he x (List.mem_cons_self x t) hv)
      rw [hset]
      have hdis' : ∀ e ∈ m ++ [(createKey x, x)], ∀ y ∈ t,
          validRecord y = true → e.1 ≠ createKey y := by
        intro e he y hy hvy
        rcases List.mem_append.mp he with h1 | h1
        · exact hdis e h1 y (List.mem_cons_of_mem x hy) hvy
        · simp at h1
          rw [h1]
          exact noClashWith_spec hnd.1 y hy hv hvy
      rw [ih (m ++ [(createKey x, x)]) hnd.2 hdis']
      rw [List.filter_cons, if_pos hv, countVal_append]
      simp only [countRec, countVal]
      omega
    · have hv' : validRecord x = false := by revert hv; cases validRecord x <;> simp
      rw [buildStep_invalid m hv', List.filter_cons, if_neg (by simp [hv'])]
      exact ih m hnd.2
        (fun e he y hy hvy => hdis e he y (List.mem_cons_of_mem x hy) hvy)

theorem countVal_buildMapB_eq (b : InvoiceData) (B : List InvoiceData)
    (h : bKeysNodup B = true) :
    countVal b (buildMapB B) = countRec b (B.filter validRecord) := by
  have := countVal_foldB_eq b B [] h (by intro e he; cases he)
  simpa [buildMapB, countVal] using this

theorem buildMapB_mem (B : List InvoiceData) :
    ∀ e ∈ buildMapB B, validRecord e.2 = true ∧ e.1 = createKey e.2 ∧
      ∃ B₁ B₂, B = B₁ ++ e.2 :: B₂ ∧ ∀ y ∈ B₂, createKey y ≠ createKey e.2 := by
  induction B using List.reverseRecOn with
  | nil => intro e he; cases he
  | append_singleton l x ih =>
    intro e he
    have hfold : buildMapB (l ++ [x]) = buildStep (buildMapB l) x := by
      simp [buildMapB, List.foldl_append]
    rw [hfold] at he
    by_cases hv : validRecord x = true
    · rw [buildStep_valid _ hv] at he
      rcases mapSet_mem (keysNodup_buildMapB l) he with h1 | h2
      · subst h1
        exact ⟨hv, rfl, l, [], rfl, by intro y hy; cases hy⟩
      · rcases ih e h2.1 with ⟨hval, hkey, B₁, B₂, hsplit, hlast⟩
        refine ⟨hval, hkey, B₁, B₂ ++ [x], by rw [hsplit]; simp, ?_⟩
        intro y hy
        rcases List.mem_append.mp hy with hy1 | hy1
        · exact hlast y hy1
        · simp at hy1
          subst hy1
          intro hc
          exact h2.2 (hkey.trans hc.symm)
    · have hv' : validRecord x = false := by revert hv; cases validRecord x <;> simp
      rw [buildStep_invalid _ hv'] at he
      rcases ih e he with ⟨hval, hkey, B₁, B₂, hsplit, hlast⟩
      refine ⟨hval, hkey, B₁, B₂ ++ [x], by rw [hsplit]; simp, ?_⟩
      intro y hy
      rcases List.mem_append.mp hy with hy1 | hy1
      · exact hlast y hy1
      · simp at hy1
        subst hy1
        exact key_ne_of_valid_invalid hval hv'

theorem countVal_pos {b : InvoiceData} : ∀ {m : BMap},
    0 < countVal b m → ∃ k, (k, b) ∈ m := by
  intro m
  induction m with
  | nil => intro h; simp [countVal] at h
  | cons e t ih =>
    intro h
    by_cases hb : e.2 = b
    · exact ⟨e.1, by rw [← hb]; exact List.mem_cons_self e t⟩
    · simp [countVal, hb] at h
      rcases ih h with ⟨k, hk⟩
      exact ⟨k, List.mem_cons_of_mem e hk⟩

theorem overwrittenIn_split {b : InvoiceData} : ∀ (B₁ B₂ : List InvoiceData),
    overwrittenIn b (B₁ ++ b :: B₂) = true →
    ∃ y ∈ B₂, createKey y = createKey b := by
  intro B₁
  induction B₁ with
  | nil =>
    intro B₂ h
    rw [List.nil_append, overwrittenIn, Bool.and_eq_true] at h
    have h1 := h.1
    rw [if_pos rfl, List.any_eq_true] at h1
    rcases h1 with ⟨y, hy, hdec⟩
    exact ⟨y, hy, of_decide_eq_true hdec⟩
  | cons z t ih =>
    intro B₂ h
    rw [List.cons_append, overwrittenIn, Bool.and_eq_true] at h
    exact ih B₂ h.2

/-!
Pass-1 invariants, proved by induction over the `dataA.forEach` fold: the
per-record accounting of `dataA` multiplicities, the conservation of B-side
multiplicities between emitted outcomes and the shrinking lookup, validity of
the deferred pool, and the outcome shape invariant.
-/

theorem pass1Step_invalid {x : InvoiceData} (h : validRecord x = false)
    (s : Pass1State) : pass1Step s x = s := by
  rcases validRecord_false h with hp | hp <;> simp [pass1Step, hp]

theorem pass1_fold_countA (a : InvoiceData) : ∀ (A : List InvoiceData) (s : Pass1State),
    countDataA a (A.foldl pass1Step s).results
        + countRec a (A.foldl pass1Step s).unmatchedA
      = countDataA a s.results + countRec a s.unmatchedA
        + countRec a (A.filter validRecord) := by
  intro A
  induction A with
  | nil => intro s; simp [countRec]
  | cons x t ih =>
    intro s
    rw [List.foldl_cons, ih (pass1Step s x), List.filter_cons]
    by_cases hv : validRecord x = true
    · rw [if_pos hv]
      have hg : ¬(createKey x = "" ∨ createKey x = "-") := validRecord_true hv
      cases hget : mapGet s.mapB (createKey x) with
      | some itemB =>
        simp only [pass1Step, if_neg hg, hget]
        rw [countDataA_append]
        simp only [countDataA, countRec]
        by_cases hxa : x = a <;> (simp [hxa]; try omega)
      | none =>
        simp only [pass1Step, if_neg hg, hget]
        rw [countRec_append]
        simp only [countDataA, countRec]
        by_cases hxa : x = a <;> (simp [hxa]; try omega)
    · have hv' : validRecord x = false := by revert hv; cases validRecord x <;> simp
      rw [pass1Step_invalid hv' s, if_neg (by simp [hv'])]

theorem pass1_fold_countB (b : InvoiceData) : ∀ (A : List InvoiceData) (s : Pass1State),
    countDataB b (A.foldl pass1Step s).results
        + countVal b (A.foldl pass1Step s).mapB
      = countDataB b s.results + countVal b s.mapB := by
  intro A
  induction A with
  | nil => intro s; rfl
  | cons x t ih =>
    intro s
    rw [List.foldl_cons, ih (pass1Step s x)]
    by_cases hv : validRecord x = true
    · have hg : ¬(createKey x = "" ∨ createKey x = "-") := validRecord_true hv
      cases hget : mapGet s.mapB (createKey x) with
      | some itemB =>
        simp only [pass1Step, if_neg hg, hget]
        rw [countDataB_append]
        have hdel := countVal_mapDelete hget b
        simp only [countDataB]
        by_cases hxb : itemB = b <;> (simp [hxb] at hdel ⊢; omega)
      | none =>
        simp only [pass1Step, if_neg hg, hget]
    · rw [pass1Step_invalid (by revert hv; cases validRecord x <;> simp) s]

theorem pass1_fold_unmatched_valid : ∀ (A : List InvoiceData) (s : Pass1State),
    (∀ x ∈ s.unmatchedA, validRecord x = true) →
    ∀ x ∈ (A.foldl pass1Step s).unmatchedA, validRecord x = true := by
  intro A
  induction A with
  | nil => intro s h; exact h
  | cons x t ih =>
    intro s h
    rw [List.foldl_cons]
    apply ih
    by_cases hv : validRecord x = true
    · have hg : ¬(createKey x = "" ∨ createKey x = "-") := validRecord_true hv
      cases hget : mapGet s.mapB (createKey x) with
      | some itemB =>
        simp only [pass1Step, if_neg hg, hget]
        exact h
      | none =>
        simp only [pass1Step, if_neg hg, hget]
        intro y hy
        rcases List.mem_append.mp hy with h1 | h1
        · exact h y h1
        · simp at h1
          rw [h1]
          exact hv
    · rw [pass1Step_invalid (by revert hv; cases validRecord x <;> simp) s]
      exact h

theorem pass1_fold_shape : ∀ (A : List InvoiceData) (s : Pass1State),
    (∀ r ∈ s.results, ShapeOK r) →
    ∀ r ∈ (A.foldl pass1Step s).results, ShapeOK r := by
  intro A
  induction A with
  | nil => intro s h; exact h
  | cons x t ih =>
    intro s h
    rw [List.foldl_cons]
    apply ih
    by_cases hv : validRecord x = true
    · have hg : ¬(createKey x = "" ∨ createKey x = "-") := validRecord_true hv
      cases hget : mapGet s.mapB (createKey x) with
      | some itemB =>
        simp only [pass1Step, if_neg hg, hget]
        intro r hr
        rcases List.mem_append.mp hr with h1 | h1
        · exact h r h1
        · simp at h1
          rw [h1]
          exact Or.inl ⟨rfl, rfl, rfl⟩
      | none =>
        simp only [pass1Step, if_neg hg, hget]
        exact h
    · rw [pass1Step_invalid (by revert hv; cases validRecord x <;> simp) s]
      exact h

/-!
The Pass-2 candidate scan.  `bestMatchAux_from` is the soundness lemma (any
produced candidate is eligible and comes from the scanned index list);
`bestMatchAux_some_spec` / `bestMatch_spec_aux` characterize the selection:
the highest score wins and, among equal scores, the candidate encountered
first in scan order.
-/

/-- Index `i` is an eligible Pass-2 candidate for `itemA`: equal normalized
GSTIN and score at least 2. -/
def eligAt (itemA : InvoiceData) (uB : List InvoiceData) (i : Nat) : Prop :=
  normStr itemA.gstin = normStr (uB.getD i default).gstin
    ∧ 2 ≤ scoreOf itemA (uB.getD i default)

/-- Score of the candidate at index `i`. -/
def scoreAt (itemA : InvoiceData) (uB : List InvoiceData) (i : Nat) : Nat :=
  scoreOf itemA (uB.getD i default)

theorem bestMatchAux_from (itemA : InvoiceData) (uB : List InvoiceData) :
    ∀ (l : List Nat) (acc : Option BestMatch) (bm : BestMatch),
      bestMatchAux itemA uB acc l = some bm →
      some bm = acc ∨
        (bm.index ∈ l ∧ bm.item = uB.getD bm.index default ∧
          normStr itemA.gstin = normStr bm.item.gstin ∧
          bm.score = scoreOf itemA bm.item ∧ 2 ≤ bm.score) := by
  intro l
  induction l with
  | nil =>
    intro acc bm h
    exact Or.inl h.symm
  | cons i rest ih =>
    intro acc bm h
    simp only [bestMatchAux] at h
    by_cases hg : normStr itemA.gstin = normStr (uB.getD i default).gstin
    · rw [if_neg (not_not_intro hg)] at h
      by_cases hsc : 2 ≤ scoreOf itemA (uB.getD i default)
      · rw [if_pos hsc] at h
        cases acc with
        | none =>
          rcases ih _ bm h with h1 | h1
          · have hbm := Option.some.inj h1
            right
            rw [hbm]
            exact ⟨List.mem_cons_self i rest, rfl, hg, rfl, hsc⟩
          · exact Or.inr ⟨List.mem_cons_of_mem i h1.1, h1.2⟩
        | some b =>
          simp only [] at h
          by_cases hcmp : b.score < scoreOf itemA (uB.getD i default)
          · rw [if_pos hcmp] at h
            rcases ih _ bm h with h1 | h1
            · have hbm := Option.some.inj h1
              right
              rw [hbm]
              exact ⟨List.mem_cons_self i rest, rfl, hg, rfl, hsc⟩
            · exact Or.inr ⟨List.mem_cons_of_mem i h1.1, h1.2⟩
          · rw [if_neg hcmp] at h
            rcases ih _ bm h with h1 | h1
            · exact Or.inl h1
            · exact Or.inr ⟨List.mem_cons_of_mem i h1.1, h1.2⟩
      · rw [if_neg hsc] at h
        rcases ih _ bm h with h1 | h1
        · exact Or.inl h1
        · exact Or.inr ⟨List.mem_cons_of_mem i h1.1, h1.2⟩
    · rw [if_pos hg] at h
      rcases ih _ bm h with h1 | h1
      · exact Or.inl h1
      · exact Or.inr ⟨List.mem_cons_of_mem i h1.1, h1.2⟩

theorem bestMatchAux_some_spec (itemA : InvoiceData) (uB : List InvoiceData) :
    ∀ (l : List Nat) (acc bm : BestMatch),
      bestMatchAux itemA uB (some acc) l = some bm →
      (bm = acc ∧ ∀ j ∈ l, eligAt itemA uB j → scoreAt itemA uB j ≤ acc.score)
      ∨ (∃ l₁ l₂, l = l₁ ++ bm.index :: l₂ ∧ eligAt itemA uB bm.index ∧
          bm.item = uB.getD bm.index default ∧
          bm.score = scoreAt itemA uB bm.index ∧
          acc.score < bm.score ∧
          (∀ j ∈ l₁, eligAt itemA uB j → scoreAt itemA uB j < bm.score) ∧
          (∀ j ∈ l₂, eligAt itemA uB j → scoreAt itemA uB j ≤ bm.score)) := by
  intro l
  induction l with
  | nil =>
    intro acc bm h
    have h' : some acc = some bm := h
    left
    exact ⟨(Option.some.inj h').symm, by intro j hj; cases hj⟩
  | cons i rest ih =>
    intro acc bm h
    simp only [bestMatchAux] at h
    by_cases hg : normStr itemA.gstin = normStr (uB.getD i default).gstin
    · rw [if_neg (not_not_intro hg)] at h
      by_cases hsc : 2 ≤ scoreOf itemA (uB.getD i default)
      · rw [if_pos hsc] at h
        by_cases hcmp : acc.score < scoreOf itemA (uB.getD i default)
        · rw [if_pos hcmp] at h
          rcases ih ⟨uB.getD i default, i, scoreOf itemA (uB.getD i default)⟩ bm h with
            ⟨hbm, hall⟩ | ⟨l₁, l₂, hsplit, helig, hitem, hscr, hlt, hpre, hpost⟩
          · right
            refine ⟨[], rest, ?_, ?_, ?_, ?_, ?_, ?_, ?_⟩
            · simp [hbm]
            · rw [hbm]; exact ⟨hg, hsc⟩
            · rw [hbm]
            · rw [hbm]; rfl
            · rw [hbm]; exact hcmp
            · intro j hj; cases hj
            · intro j hj hel
              rw [hbm]
              exact hall j hj hel
          · right
            refine ⟨i :: l₁, l₂, by rw [hsplit, List.cons_append], helig, hitem,
              hscr, lt_trans hcmp hlt, ?_, hpost⟩
            intro j hj hel
            rcases List.mem_cons.mp hj with h1 | h1
            · rw [h1]
              exact hlt
            · exact hpre j h1 hel
        · rw [if_neg hcmp] at h
          rcases ih acc bm h with
            ⟨hbm, hall⟩ | ⟨l₁, l₂, hsplit, helig, hitem, hscr, hlt, hpre, hpost⟩
          · left
            refine ⟨hbm, ?_⟩
            intro j hj hel
            rcases List.mem_cons.mp hj with h1 | h1
            · rw [h1]
              exact not_lt.mp hcmp
            · exact hall j h1 hel
          · right
            refine ⟨i :: l₁, l₂, by rw [hsplit, List.cons_append], helig, hitem,
              hscr, hlt, ?_, hpost⟩
            intro j hj hel
            rcases List.mem_cons.mp hj with h1 | h1
            · rw [h1]
              exact lt_of_le_of_lt (not_lt.mp hcmp) hlt
            · exact hpre j h1 hel
      · rw [if_neg hsc] at h
        rcases ih acc bm h with
          ⟨hbm, hall⟩ | ⟨l₁, l₂, hsplit, helig, hitem, hscr, hlt, hpre, hpost⟩
        · left
          refine ⟨hbm, ?_⟩
          intro j hj hel
          rcases List.mem_cons.mp hj with h1 | h1
          · exact absurd (h1 ▸ hel).2 hsc
          · exact hall j h1 hel
        · right
          refine ⟨i :: l₁, l₂, by rw [hsplit, List.cons_append], helig, hitem,
            hscr, hlt, ?_, hpost⟩
          intro j hj hel
          rcases List.mem_cons.mp hj with h1 | h1
          · exact absurd (h1 ▸ hel).2 hsc
          · exact hpre j h1 hel
    · rw [if_pos hg] at h
      rcases ih acc bm h with
        ⟨hbm, hall⟩ | ⟨l₁, l₂, hsplit, helig, hitem, hscr, hlt, hpre, hpost⟩
      · left
        refine ⟨hbm, ?_⟩
        intro j hj hel
        rcases List.mem_cons.mp hj with h1 | h1
        · exact absurd (h1 ▸ hel).1 hg
        · exact hall j h1 hel
      · right
        refine ⟨i :: l₁, l₂, by rw [hsplit, List.cons_append], helig, hitem,
          hscr, hlt, ?_, hpost⟩
        intro j hj hel
        rcases List.mem_cons.mp hj with h1 | h1
        · exact absurd (h1 ▸ hel).1 hg
        · exact hpre j h1 hel

theorem bestMatch_spec_aux (itemA : InvoiceData) (uB : List InvoiceData) :
    ∀ (l : List Nat) (bm : BestMatch),
      bestMatchAux itemA uB none l = some bm →
      ∃ l₁ l₂, l = l₁ ++ bm.index :: l₂ ∧ eligAt itemA uB bm.index ∧
        bm.item = uB.getD bm.index default ∧
        bm.score = scoreAt itemA uB bm.index ∧
        (∀ j ∈ l₁, eligAt itemA uB j → scoreAt itemA uB j < bm.score) ∧
        (∀ j ∈ l₂, eligAt itemA uB j → scoreAt itemA uB j ≤ bm.score) := by
  intro l
  induction l with
  | nil =>
    intro bm h
    simp [bestMatchAux] at h
  | cons i rest ih =>
    intro bm h
    simp only [bestMatchAux] at h
    by_cases hg : normStr itemA.gstin = normStr (uB.getD i default).gstin
    · rw [if_neg (not_not_intro hg)] at h
      by_cases hsc : 2 ≤ scoreOf itemA (uB.getD i default)
      · rw [if_pos hsc] at h
        rcases bestMatchAux_some_spec itemA uB rest
            ⟨uB.getD i default, i, scoreOf itemA (uB.getD i default)⟩ bm h with
          ⟨hbm, hall⟩ | ⟨l₁, l₂, hsplit, helig, hitem, hscr, hlt, hpre, hpost⟩
        · refine ⟨[], rest, by simp [hbm], ?_, ?_, ?_, ?_, ?_⟩
          · rw [hbm]; exact ⟨hg, hsc⟩
          · rw [hbm]
          · rw [hbm]; rfl
          · intro j hj; cases hj
          · intro j hj hel
            rw [hbm]
            exact hall j hj hel
        · refine ⟨i :: l₁, l₂, by rw [hsplit, List.cons_append], helig, hitem,
            hscr, ?_, hpost⟩
          intro j hj hel
          rcases List.mem_cons.mp hj with h1 | h1
          · rw [h1]
            exact hlt
          · exact hpre j h1 hel
      · rw [if_neg hsc] at h
        rcases ih bm h with ⟨l₁, l₂, hsplit, helig, hitem, hscr, hpre, hpost⟩
        refine ⟨i :: l₁, l₂, by rw [hsplit, List.cons_append], helig, hitem,
          hscr, ?_, hpost⟩
        intro j hj hel
        rcases List.mem_cons.mp hj with h1 | h1
        · exact absurd (h1 ▸ hel).2 hsc
        · exact hpre j h1 hel
    · rw [if_pos hg] at h
      rcases ih bm h with ⟨l₁, l₂, hsplit, helig, hitem, hscr, hpre, hpost⟩
      refine ⟨i :: l₁, l₂, by rw [hsplit, List.cons_append], helig, hitem,
        hscr, ?_, hpost⟩
      intro j hj hel
      rcases List.mem_cons.mp hj with h1 | h1
      · exact absurd (h1 ▸ hel).1 hg
      · exact hpre j h1 hel

theorem bestMatch_from (itemA : InvoiceData) (uB : List InvoiceData)
    (avail : List Nat) (bm : BestMatch) (h : bestMatch itemA uB avail = some bm) :
    bm.index ∈ avail ∧ bm.item = uB.getD bm.index default ∧
      normStr itemA.gstin = normStr bm.item.gstin ∧
      bm.score = scoreOf itemA bm.item ∧ 2 ≤ bm.score := by
  rcases bestMatchAux_from itemA uB avail none bm h with h1 | h1
  · cases h1
  · exact h1

/-!
Pass-2 invariants and the end-to-end multiplicity totals.
-/

theorem removeElem_count (f : Nat → InvoiceData) (b : InvoiceData) :
    ∀ (l : List Nat) (i : Nat), i ∈ l →
      countRec b ((removeElem i l).map f) + (if f i = b then 1 else 0)
        = countRec b (l.map f) := by
  intro l
  induction l with
  | nil => intro i hi; cases hi
  | cons j t ih =>
    intro i hi
    by_cases hj : j = i
    · subst hj
      simp only [removeElem, if_pos rfl, List.map_cons, countRec]
      exact Nat.add_comm _ _
    · have hi' : i ∈ t := by
        rcases List.mem_cons.mp hi with h1 | h1
        · exact absurd h1.symm hj
        · exact h1
      simp only [removeElem, if_neg hj, List.map_cons, countRec]
      rw [← ih i hi']
      omega

theorem pass2_fold_countA (uB : List InvoiceData) (a : InvoiceData) :
    ∀ (uA : List InvoiceData) (s : Pass2State),
      countDataA a (uA.foldl (pass2Step uB) s).results
          + countRec a (uA.foldl (pass2Step uB) s).finalA
        = countDataA a s.results + countRec a s.finalA + countRec a uA := by
  intro uA
  induction uA with
  | nil => intro s; simp [countRec]
  | cons x t ih =>
    intro s
    rw [List.foldl_cons, ih (pass2Step uB s x)]
    cases hbm : bestMatch x uB s.avail with
    | some bm =>
      simp only [pass2Step, hbm]
      rw [countDataA_append]
      simp only [countDataA, countRec]
      by_cases hxa : x = a <;> (simp [hxa]; try omega)
    | none =>
      simp only [pass2Step, hbm]
      rw [countRec_append]
      simp only [countDataA, countRec]
      by_cases hxa : x = a <;> (simp [hxa]; try omega)

theorem pass2_fold_countB (uB : List InvoiceData) (b : InvoiceData) :
    ∀ (uA : List InvoiceData) (s : Pass2State),
      countDataB b (uA.foldl (pass2Step uB) s).results
          + countRec b ((uA.foldl (pass2Step uB) s).avail.map
              (fun i => uB.getD i default))
        = countDataB b s.results
          + countRec b (s.avail.map (fun i => uB.getD i default)) := by
  intro uA
  induction uA with
  | nil => intro s; rfl
  | cons x t ih =>
    intro s
    rw [List.foldl_cons, ih (pass2Step uB s x)]
    cases hbm : bestMatch x uB s.avail with
    | some bm =>
      rcases bestMatch_from x uB s.avail bm hbm with ⟨hmem, hitem, -, -, -⟩
      simp only [pass2Step, hbm]
      rw [countDataB_append]
      have hrm := removeElem_count (fun i => uB.getD i default) b s.avail
        bm.index hmem
      simp only [] at hrm
      simp only [countDataB, hitem]
      by_cases hxb : uB.getD bm.index default = b
      · simp [hxb] at hrm ⊢
        omega
      · simp [hxb] at hrm ⊢
        omega
    | none =>
      simp only [pass2Step, hbm]

theorem pass2_fold_shape (uB : List InvoiceData) :
    ∀ (uA : List InvoiceData) (s : Pass2State),
      (∀ r ∈ s.results, ShapeOK r) →
      ∀ r ∈ (uA.foldl (pass2Step uB) s).results, ShapeOK r := by
  intro uA
  induction uA with
  | nil => intro s h; exact h
  | cons x t ih =>
    intro s h
    rw [List.foldl_cons]
    apply ih
    cases hbm : bestMatch x uB s.avail with
    | some bm =>
      rcases bestMatch_from x uB s.avail bm hbm with ⟨-, -, hgst, hscr, hge⟩
      simp only [pass2Step, hbm]
      intro r hr
      rcases List.mem_append.mp hr with h1 | h1
      · exact h r h1
      · simp at h1
        rw [h1]
        exact Or.inr ⟨rfl, rfl, hgst, hscr ▸ hge, rfl⟩
    | none =>
      simp only [pass2Step, hbm]
      exact h

theorem countRec_values (b : InvoiceData) : ∀ (m : BMap),
    countRec b (m.map Prod.snd) = countVal b m := by
  intro m
  induction m with
  | nil => rfl
  | cons e t ih => simp [countRec, countVal, ih]

theorem map_getD_range (l : List InvoiceData) :
    (List.range l.length).map (fun i => l.getD i default) = l := by
  induction l with
  | nil => simp
  | cons x t ih =>
    rw [List.length_cons, List.range_succ_eq_map, List.map_cons, List.map_map]
    have hc : ((fun i => (x :: t).getD i default) ∘ Nat.succ)
        = (fun i => t.getD i default) := by
      funext i
      simp [List.getD_cons_succ]
    rw [hc, ih]
    simp [List.getD_cons_zero]

theorem countDataA_map_mkA (a : InvoiceData) : ∀ (l : List InvoiceData),
    countDataA a (l.map (fun itemA =>
      ({ key := createKey itemA, dataA := some itemA,
         remark := Remark.NOT_IN_B } : ReconciliationResult))) = countRec a l := by
  intro l
  induction l with
  | nil => rfl
  | cons x t ih =>
    simp only [List.map_cons, countDataA, countRec, ih]
    by_cases hxa : x = a <;> simp [hxa]

theorem countDataB_map_mkA (b : InvoiceData) : ∀ (l : List InvoiceData),
    countDataB b (l.map (fun itemA =>
      ({ key := createKey itemA, dataA := some itemA,
         remark := Remark.NOT_IN_B } : ReconciliationResult))) = 0 := by
  intro l
  induction l with
  | nil => rfl
  | cons x t ih => simp [countDataB, ih]

theorem countDataB_map_mkB (b : InvoiceData) : ∀ (l : List InvoiceData),
    countDataB b (l.map (fun itemB =>
      ({ key := createKey itemB, dataB := some itemB,
         remark := Remark.NOT_IN_A } : ReconciliationResult))) = countRec b l := by
  intro l
  induction l with
  | nil => rfl
  | cons x t ih =>
    simp only [List.map_cons, countDataB, countRec, ih]
    by_cases hxb : x = b <;> simp [hxb]

theorem countDataA_map_mkB (a : InvoiceData) : ∀ (l : List InvoiceData),
    countDataA a (l.map (fun itemB =>
      ({ key := createKey itemB, dataB := some itemB,
         remark := Remark.NOT_IN_A } : ReconciliationResult))) = 0 := by
  intro l
  induction l with
  | nil => rfl
  | cons x t ih => simp [countDataA, ih]

theorem reconcile_countA (A B : List InvoiceData) (a : InvoiceData) :
    countDataA a (reconcileFiles A B) = countRec a (A.filter validRecord) := by
  have h1 := pass1_fold_countA a A
    { results := [], unmatchedA := [], mapB := buildMapB B }
  have h2 := pass2_fold_countA (unmatchedBOf A B) a (pass1Of A B).unmatchedA
    { results := [], finalA := [], avail := List.range (unmatchedBOf A B).length }
  simp only [countDataA, countRec, Nat.zero_add, Nat.add_zero] at h1 h2
  simp only [reconcileFiles, countDataA_append, countDataA_map_mkA,
    countDataA_map_mkB]
  simp only [pass1Of, pass1, pass2Of, pass2] at *
  omega

theorem reconcile_countB (A B : List InvoiceData) (b : InvoiceData) :
    countDataB b (reconcileFiles A B) = countVal b (buildMapB B) := by
  have h1 := pass1_fold_countB b A
    { results := [], unmatchedA := [], mapB := buildMapB B }
  have h2 := pass2_fold_countB (unmatchedBOf A B) b (pass1Of A B).unmatchedA
    { results := [], finalA := [], avail := List.range (unmatchedBOf A B).length }
  simp only [countDataB, Nat.zero_add, Nat.add_zero] at h1 h2
  rw [map_getD_range (unmatchedBOf A B)] at h2
  have h3 : countRec b (unmatchedBOf A B) = countVal b (pass1Of A B).mapB := by
    simp only [unmatchedBOf]
    exact countRec_values b _
  simp only [reconcileFiles, countDataB_append, countDataB_map_mkA,
    countDataB_map_mkB]
  simp only [pass1Of, pass1, pass2Of, pass2, unmatchedBOf] at *
  omega

theorem reconcile_shape (A B : List InvoiceData) :
    ∀ r ∈ reconcileFiles A B, ShapeOK r := by
  intro r hr
  simp only [reconcileFiles, pass1Of, pass1, pass2Of, pass2, unmatchedBOf] at hr
  rcases List.mem_append.mp hr with h | hB
  · rcases List.mem_append.mp h with h | hA
    · rcases List.mem_append.mp h with h1 | h2
      · exact pass1_fold_shape A _ (by intro r hr; cases hr) r h1
      · exact pass2_fold_shape _ _ _ (by intro r hr; cases hr) r h2
    · rcases List.mem_map.mp hA with ⟨x, -, hmk⟩
      rw [← hmk]
      exact ⟨rfl, rfl⟩
  · rcases List.mem_map.mp hB with ⟨x, -, hmk⟩
    rw [← hmk]
    exact ⟨rfl, rfl⟩

/-!
Remaining helper lemmas for the claim theorems.
-/

theorem mapGet_mapSet (m : BMap) (k : String) (v : InvoiceData) :
    mapGet (mapSet m k v) k = some v := by
  induction m with
  | nil => simp [mapSet, mapGet]
  | cons e t ih =>
    by_cases he : e.1 = k
    · simp [mapSet, he, mapGet]
    · simp [mapSet, he, mapGet, ih]

theorem getDiffs_nil_values {a b : InvoiceData} (h : getDiffs a b = []) :
    areValuesEqual a.taxableValue b.taxableValue = true := by
  by_cases hv : areValuesEqual a.taxableValue b.taxableValue
  · exact hv
  · exfalso
    unfold getDiffs at h
    rw [if_neg hv] at h
    simp at h

theorem toDateString_ne_invalid (x : Int) :
    toDateString (some x) ≠ "Invalid Date" := by
  intro h
  unfold toDateString at h
  have h2 := congrArg String.data h
  obtain ⟨l⟩ := toString (Int.fdiv x 86400000)
  simp [String.data] at h2

/-!
The claim theorems.
-/

/-- Claim C1 (amended).  As stated the claim is false: a record whose match
key is the `"-"` sentinel is silently skipped by Pass 1 (the `return` in the
`forEach` does not defer it) and appears in no outcome.  Amended claim:
every A record with a valid key appears as `dataA` in exactly one outcome
(multiset equality with `A` filtered to valid keys), and, provided no two
valid B records share a key (the documented precondition), every B record
with a valid key appears as `dataB` in exactly one outcome. -/
theorem c1_coverage_amended (A B : List InvoiceData) :
    (∀ a, countDataA a (reconcileFiles A B) = countRec a (A.filter validRecord))
    ∧ (bKeysNodup B = true →
        ∀ b, countDataB b (reconcileFiles A B)
          = countRec b (B.filter validRecord)) :=
  ⟨fun a => reconcile_countA A B a,
   fun h b => (reconcile_countB A B b).trans (countVal_buildMapB_eq b B h)⟩

/-- Claim C1, witness: a concrete matched pair is covered exactly once on
each side. -/
theorem c1_coverage_amended_witness :
    countDataA w1a (reconcileFiles [w1a] [w1b]) = 1
    ∧ countDataB w1b (reconcileFiles [w1a] [w1b]) = 1 := by
  refine ⟨?_, ?_⟩
  · rw [(c1_coverage_amended [w1a] [w1b]).1 w1a]
    decide
  · rw [(c1_coverage_amended [w1a] [w1b]).2 (by decide) w1b]
    decide

/-- Claim C1, counterexample: a record of A with the `"-"` sentinel key
appears as `dataA` in no outcome at all, refuting "every record of A appears
in exactly one outcome ... regardless of whether its match key is valid". -/
theorem c1_coverage_counterexample :
    badRec ∈ [badRec]
    ∧ countDataA badRec (reconcileFiles [badRec] []) = 0 := by decide

/-- Claim C2 (amended).  As stated the claim is false: in Pass 1 an A record
with an invalid key is skipped entirely, not deferred.  Amended claim: the
unmatched-A pool never contains an invalid-key record, and an invalid-key
record appears in no outcome (it is silently discarded, never reaching
Pass 2). -/
theorem c2_invalid_key_amended (A B : List InvoiceData) (x : InvoiceData)
    (hx : validRecord x = false) :
    x ∉ (pass1Of A B).unmatchedA
    ∧ ∀ r ∈ reconcileFiles A B, r.dataA ≠ some x := by
  constructor
  · intro hmem
    have hval : validRecord x = true := by
      apply pass1_fold_unmatched_valid A
        { results := [], unmatchedA := [], mapB := buildMapB B }
        (fun y hy => absurd hy (List.not_mem_nil y))
      exact hmem
    rw [hval] at hx
    cases hx
  · intro r hr
    apply countDataA_eq_zero _ r hr
    rw [reconcile_countA]
    exact countRec_filter_not hx

/-- Claim C2, witness: the whitespace-only record is not in the pool. -/
theorem c2_invalid_key_amended_witness :
    badRec2 ∉ (pass1Of [badRec2] []).unmatchedA :=
  (c2_invalid_key_amended [badRec2] [] badRec2 (by decide)).1

/-- Claim C2, counterexample: the invalid-key record is in the input, yet
after Pass 1 the unmatched-A pool is empty and the whole engine emits no
outcome for it — it was discarded, not "deferred ... so that it is carried
into Pass 2". -/
theorem c2_invalid_key_counterexample :
    validRecord badRec2 = false
    ∧ (pass1Of [badRec2] []).unmatchedA = []
    ∧ reconcileFiles [badRec2] [] = [] := by decide

/-- Claim C4 (confirmed).  Every Low-confidence (fuzzy) outcome pairs
records with equal normalized (trimmed, upper-cased) GSTINs: the Pass-2 scan
skips every candidate whose normalized GSTIN differs, whatever its score. -/
theorem c4_fuzzy_gstin (A B : List InvoiceData) (r : ReconciliationResult)
    (a b : InvoiceData) (hr : r ∈ reconcileFiles A B)
    (hconf : r.matchConfidence = some Confidence.Low)
    (ha : r.dataA = some a) (hb : r.dataB = some b) :
    normStr a.gstin = normStr b.gstin := by
  have hs := reconcile_shape A B r hr
  simp only [ShapeOK, ha, hb] at hs
  rcases hs with ⟨hH, -, -⟩ | ⟨-, -, hg, -, -⟩
  · rw [hconf] at hH
    simp at hH
  · exact hg

/-- Claim C4, witness: a concrete fuzzy outcome with equal GSTINs. -/
theorem c4_fuzzy_gstin_witness : normStr w4a.gstin = normStr w4b.gstin :=
  c4_fuzzy_gstin [w4a] [w4b] ((reconcileFiles [w4a] [w4b]).getD 0 default)
    w4a w4b (by decide) (by decide) (by decide) (by decide)

/-- Claim C6 (confirmed).  No record is used twice: the number of outcomes
carrying a given record as `dataA` is at most its multiplicity in A, and
likewise for `dataB` and B — in particular a record occurring once appears
in at most one outcome. -/
theorem c6_no_double_use (A B : List InvoiceData) (a b : InvoiceData) :
    countDataA a (reconcileFiles A B) ≤ countRec a A
    ∧ countDataB b (reconcileFiles A B) ≤ countRec b B := by
  constructor
  · rw [reconcile_countA]
    exact countRec_le_of_count validRecord
  · rw [reconcile_countB]
    exact le_trans (countVal_buildMapB_le b B) (countRec_le_of_count validRecord)

/-- Claim C10 (confirmed).  `areNamesSimilar` is false whenever either name
is the empty string or simplifies (lower-case, strip whitespace and `.,-`)
to the empty string, so a blank name can never match vacuously through the
empty-substring case. -/
theorem c10_blank_name_guard (nameA nameB : String)
    (h : nameA = "" ∨ nameB = ""
      ∨ simplifyName nameA = "" ∨ simplifyName nameB = "") :
    areNamesSimilar nameA nameB = false := by
  rcases h with h | h | h | h <;> simp [areNamesSimilar, h]

/-- Claim C10, witness: a blank name and a punctuation-only name both fail
against a real name. -/
theorem c10_blank_name_guard_witness :
    areNamesSimilar "" "ACME PVT LTD" = false
    ∧ areNamesSimilar ".,-" "ACME" = false :=
  ⟨c10_blank_name_guard "" "ACME PVT LTD" (Or.inl rfl),
   c10_blank_name_guard ".,-" "ACME" (Or.inr (Or.inr (Or.inl (by decide))))⟩

/-- Claim C3 (amended).  As stated the claim is false: the Pass-1 remark is
decided by `areValuesEqual` alone, so a High-confidence pair with equal
values but another differing field (a non-empty diff set) is still remarked
`Match`.  Amended claim: for every both-present outcome, Low confidence
always gives `PartiallyMatched`; High confidence gives `Match` exactly when
the taxable values are equal within 0.001; and an absent (empty) diff set
with High confidence still implies `Match`. -/
theorem c3_remark_amended (A B : List InvoiceData) (r : ReconciliationResult)
    (a b : InvoiceData) (hr : r ∈ reconcileFiles A B)
    (ha : r.dataA = some a) (hb : r.dataB = some b) :
    (r.matchConfidence = some Confidence.Low →
      r.remark = Remark.PARTIALLY_MATCHED)
    ∧ (r.matchConfidence = some Confidence.High →
        (r.remark = Remark.MATCH
          ↔ areValuesEqual a.taxableValue b.taxableValue = true))
    ∧ (r.matchConfidence = some Confidence.High → r.diffs = none →
        r.remark = Remark.MATCH) := by
  have hs := reconcile_shape A B r hr
  simp only [ShapeOK, ha, hb] at hs
  refine ⟨?_, ?_, ?_⟩
  · intro hL
    rcases hs with ⟨hH, -, -⟩ | ⟨-, hrem, -⟩
    · rw [hL] at hH
      simp at hH
    · exact hrem
  · intro hH
    rcases hs with ⟨-, hrem, -⟩ | ⟨hLo, -, -⟩
    · by_cases hv : areValuesEqual a.taxableValue b.taxableValue = true
      · rw [if_pos hv] at hrem
        exact ⟨fun _ => hv, fun _ => hrem⟩
      · rw [if_neg hv] at hrem
        constructor
        · intro hM
          exact absurd (hrem.symm.trans hM) (by simp)
        · intro hv2
          exact absurd hv2 hv
    · rw [hH] at hLo
      simp at hLo
  · intro hH hdn
    rcases hs with ⟨-, hrem, hdif⟩ | ⟨hLo, -, -⟩
    · rw [hdn] at hdif
      by_cases hlen : 0 < (getDiffs a b).length
      · rw [if_pos hlen] at hdif
        simp at hdif
      · have hnil : getDiffs a b = [] := by
          cases hg : getDiffs a b with
          | nil => rfl
          | cons u v => rw [hg] at hlen; simp at hlen
        rw [if_pos (getDiffs_nil_values hnil)] at hrem
        exact hrem
    · rw [hH] at hLo
      simp at hLo

/-- Claim C3, witness: the High-confidence characterization applied to a
concrete exact-key pair with equal values. -/
theorem c3_remark_amended_witness :
    ((reconcileFiles [w3a] [w3b]).getD 0 default).remark = Remark.MATCH :=
  ((c3_remark_amended [w3a] [w3b]
      ((reconcileFiles [w3a] [w3b]).getD 0 default) w3a w3b
      (by decide) (by decide) (by decide)).2.1 (by decide)).mpr (by decide)

/-- Claim C3, counterexample: a High-confidence pair with equal key and
values but dissimilar names — the diff set is the non-empty `["Name"]`, yet
the remark is `Match`, refuting "any pair with a non-empty diff set ... is
remarked PartiallyMatched". -/
theorem c3_remark_counterexample :
    (reconcileFiles [w3a] [w3b]).length = 1
    ∧ ((reconcileFiles [w3a] [w3b]).getD 0 default).remark = Remark.MATCH
    ∧ ((reconcileFiles [w3a] [w3b]).getD 0 default).matchConfidence
        = some Confidence.High
    ∧ ((reconcileFiles [w3a] [w3b]).getD 0 default).diffs = some ["Name"] := by
  decide

/-- Claim C5 (confirmed).  When the Pass-2 scan (`bestMatch`, invoked by
`pass2Step` on the still-available candidate indices in B-scan order)
returns a candidate, that candidate is eligible (equal normalized GSTIN,
score at least 2), every eligible candidate scanned before it scores
strictly less (so equal-score ties keep the first encountered), and every
eligible candidate after it scores at most its score — i.e. the selected
candidate has the strictly highest score, first-wins on ties. -/
theorem c5_best_candidate_selection (itemA : InvoiceData)
    (uB : List InvoiceData) (avail : List Nat) (bm : BestMatch)
    (h : bestMatch itemA uB avail = some bm) :
    ∃ l₁ l₂, avail = l₁ ++ bm.index :: l₂
      ∧ normStr itemA.gstin = normStr (uB.getD bm.index default).gstin
      ∧ 2 ≤ scoreOf itemA (uB.getD bm.index default)
      ∧ bm.item = uB.getD bm.index default
      ∧ bm.score = scoreOf itemA (uB.getD bm.index default)
      ∧ (∀ j ∈ l₁, normStr itemA.gstin = normStr (uB.getD j default).gstin →
          2 ≤ scoreOf itemA (uB.getD j default) →
          scoreOf itemA (uB.getD j default) < bm.score)
      ∧ (∀ j ∈ l₂, normStr itemA.gstin = normStr (uB.getD j default).gstin →
          2 ≤ scoreOf itemA (uB.getD j default) →
          scoreOf itemA (uB.getD j default) ≤ bm.score) := by
  rcases bestMatch_spec_aux itemA uB avail bm h with
    ⟨l₁, l₂, hsplit, helig, hitem, hscr, hpre, hpost⟩
  exact ⟨l₁, l₂, hsplit, helig.1, helig.2, hitem, hscr,
    fun j hj hg hs => hpre j hj ⟨hg, hs⟩,
    fun j hj hg hs => hpost j hj ⟨hg, hs⟩⟩

/-- Claim C5, witness: two candidates tie at score 2 and the scan keeps the
first (index 0). -/
theorem c5_best_candidate_selection_witness :
    ∃ l₁ l₂, ([0, 1] : List Nat) = l₁ ++ (0 : Nat) :: l₂
      ∧ normStr w5A.gstin = normStr (w5B.getD 0 default).gstin
      ∧ 2 ≤ scoreOf w5A (w5B.getD 0 default)
      ∧ mkRec "G" "XAAAX" "I8" DateVal.invalid 500 = w5B.getD 0 default
      ∧ (2 : Nat) = scoreOf w5A (w5B.getD 0 default)
      ∧ (∀ j ∈ l₁, normStr w5A.gstin = normStr (w5B.getD j default).gstin →
          2 ≤ scoreOf w5A (w5B.getD j default) →
          scoreOf w5A (w5B.getD j default) < 2)
      ∧ (∀ j ∈ l₂, normStr w5A.gstin = normStr (w5B.getD j default).gstin →
          2 ≤ scoreOf w5A (w5B.getD j default) →
          scoreOf w5A (w5B.getD j default) ≤ 2) :=
  c5_best_candidate_selection w5A w5B [0, 1]
    ⟨mkRec "G" "XAAAX" "I8" DateVal.invalid 500, 0, 2⟩ (by decide)

/-- Claim C7 (amended).  As stated the claim is false: `getDiffs` compares
`toDateString()` strings, and two missing/unparseable dates both stringify
to "Invalid Date", so such a pair does NOT get 'Invoice date' in its diff
set.  Amended claim: 'Invoice date' is in the diff set iff the two
`toDateString` values differ; a pair with exactly one unparseable date does
include it, a pair with two unparseable dates does not. -/
theorem c7_date_diff_amended (a b : InvoiceData) :
    ("Invoice date" ∈ getDiffs a b ↔
      toDateString (newDateMs a.invoiceDate)
        ≠ toDateString (newDateMs b.invoiceDate))
    ∧ (newDateMs a.invoiceDate = none → newDateMs b.invoiceDate ≠ none →
        "Invoice date" ∈ getDiffs a b)
    ∧ (newDateMs a.invoiceDate = none → newDateMs b.invoiceDate = none →
        "Invoice date" ∉ getDiffs a b) := by
  have hs1 : ("Invoice date" : String) ≠ "GSTIN" := by decide
  have hs2 : ("Invoice date" : String) ≠ "Invoice no." := by decide
  have hs3 : ("Invoice date" : String) ≠ "Name" := by decide
  have hs4 : ("Invoice date" : String) ≠ "taxable value" := by decide
  have hiff : "Invoice date" ∈ getDiffs a b ↔
      toDateString (newDateMs a.invoiceDate)
        ≠ toDateString (newDateMs b.invoiceDate) := by
    by_cases c1 : normStr a.gstin = normStr b.gstin <;>
    by_cases c2 : normStr a.invoiceNo = normStr b.invoiceNo <;>
    by_cases c3 : areNamesSimilar a.name b.name = true <;>
    by_cases c4 : toDateString (newDateMs a.invoiceDate)
      = toDateString (newDateMs b.invoiceDate) <;>
    by_cases c5 : areValuesEqual a.taxableValue b.taxableValue = true <;>
    simp [getDiffs, c1, c2, c3, c4, c5, hs1, hs2, hs3, hs4]
  refine ⟨hiff, ?_, ?_⟩
  · intro hna hnb
    cases hx : newDateMs b.invoiceDate with
    | none => exact absurd hx hnb
    | some x =>
      apply hiff.mpr
      rw [hna, hx]
      intro heq
      exact toDateString_ne_invalid x heq.symm
  · intro hna hnb
    intro hmem
    have hne := hiff.mp hmem
    rw [hna, hnb] at hne
    exact hne rfl

/-- Claim C7, witness: a pair with exactly one unparseable date does carry
'Invoice date' in its diff set. -/
theorem c7_date_diff_amended_witness : "Invoice date" ∈ getDiffs w7a w7c :=
  (c7_date_diff_amended w7a w7c).2.1 (by decide) (by decide)

/-- Claim C7, counterexample: both invoice dates unparseable — the claim
says 'Invoice date' must be in the diff set, but it is not ("Invalid Date"
compares equal to itself). -/
theorem c7_date_diff_counterexample :
    newDateMs w7a.invoiceDate = none
    ∧ newDateMs w7b.invoiceDate = none
    ∧ "Invoice date" ∉ getDiffs w7a w7b := by decide

/-- Claim C8 (confirmed).  `mapB.set` is last-write-wins (the lookup returns
the most recently written record for a key), the engine neither validates
nor rejects duplicate keys, and a B record each of whose occurrences is
followed by a later record with the same match key is overwritten in the
lookup and appears as `dataB` in no outcome: silent data loss, no error. -/
theorem c8_duplicate_key_overwrite :
    (∀ (m : BMap) (k : String) (v : InvoiceData),
      mapGet (mapSet m k v) k = some v)
    ∧ ∀ (A B : List InvoiceData) (b : InvoiceData),
        overwrittenIn b B = true →
        ∀ r ∈ reconcileFiles A B, r.dataB ≠ some b := by
  constructor
  · exact mapGet_mapSet
  · intro A B b hov r hr hdb
    have h0 : countVal b (buildMapB B) = 0 := by
      by_contra hne
      rcases countVal_pos (Nat.pos_of_ne_zero hne) with ⟨k, hk⟩
      rcases buildMapB_mem B (k, b) hk with ⟨-, -, B₁, B₂, hsplit, hlast⟩
      rcases overwrittenIn_split B₁ B₂ (hsplit ▸ hov) with ⟨y, hy, hkey⟩
      exact hlast y hy hkey
    have hcb := reconcile_countB A B b
    rw [h0] at hcb
    exact countDataB_eq_zero hcb r hr hdb

/-- Claim C8, witness: two B records share the key `G2-I2`; the lookup holds
the later one, and the earlier one appears in no outcome. -/
theorem c8_duplicate_key_overwrite_witness :
    mapGet (mapSet (mapSet [] "G2-I2" w8b1) "G2-I2" w8b2) "G2-I2" = some w8b2
    ∧ ((reconcileFiles [] [w8b1, w8b2]).getD 0 default).dataB ≠ some w8b1 :=
  ⟨c8_duplicate_key_overwrite.1 (mapSet [] "G2-I2" w8b1) "G2-I2" w8b2,
   c8_duplicate_key_overwrite.2 [] [w8b1, w8b2] w8b1 (by decide)
     ((reconcileFiles [] [w8b1, w8b2]).getD 0 default) (by decide)⟩

/-- Claim C9 (amended).  As stated the claim is false: an A record with an
invalid match key is not consumed by Pass 1 or Pass 2 and yet produces no
outcome at all (it is dropped).  Amended claim: every *valid-key* A record
that appears in no paired outcome appears in an A-only outcome with remark
`NOT_IN_B`, whose stable string is "In File A only"; symmetrically for B
(under the documented distinct-valid-keys precondition on B), with remark
string "In File B only". -/
theorem c9_residual_amended (A B : List InvoiceData) :
    (∀ a, validRecord a = true → a ∈ A →
      (∀ r ∈ reconcileFiles A B, r.dataA = some a → r.dataB = none) →
      ∃ r ∈ reconcileFiles A B, r.dataA = some a ∧ r.dataB = none
        ∧ r.remark = Remark.NOT_IN_B
        ∧ remarkString r.remark = "In File A only")
    ∧ (bKeysNodup B = true → ∀ b, validRecord b = true → b ∈ B →
      (∀ r ∈ reconcileFiles A B, r.dataB = some b → r.dataA = none) →
      ∃ r ∈ reconcileFiles A B, r.dataB = some b ∧ r.dataA = none
        ∧ r.remark = Remark.NOT_IN_A
        ∧ remarkString r.remark = "In File B only") := by
  constructor
  · intro a hv ha hone
    have hc : 0 < countDataA a (reconcileFiles A B) := by
      rw [reconcile_countA]
      exact countRec_filter_pos ha hv
    rcases countDataA_pos hc with ⟨r, hr, hra⟩
    have hb := hone r hr hra
    have hs := reconcile_shape A B r hr
    simp only [ShapeOK, hra, hb] at hs
    exact ⟨r, hr, hra, hb, hs.1, by rw [hs.1]; rfl⟩
  · intro hnd b hv hb hone
    have hc : 0 < countDataB b (reconcileFiles A B) := by
      rw [reconcile_countB, countVal_buildMapB_eq b B hnd]
      exact countRec_filter_pos hb hv
    rcases countDataB_pos hc with ⟨r, hr, hrb⟩
    have hda := hone r hr hrb
    have hs := reconcile_shape A B r hr
    simp only [ShapeOK, hrb, hda] at hs
    exact ⟨r, hr, hrb, hda, hs.1, by rw [hs.1]; rfl⟩

/-- Claim C9, witness: a valid A record with empty B ends in an A-only
outcome labelled "In File A only". -/
theorem c9_residual_amended_witness :
    ∃ r ∈ reconcileFiles [w9a] [], r.dataA = some w9a ∧ r.dataB = none
      ∧ r.remark = Remark.NOT_IN_B
      ∧ remarkString r.remark = "In File A only" :=
  (c9_residual_amended [w9a] []).1 w9a (by decide) (by decide) (by decide)

/-- Claim C9, counterexample: an invalid-key A record is never consumed by
Pass 1 or Pass 2, yet the engine emits no outcome at all for it — it does
not "become an outcome carrying only that record as dataA". -/
theorem c9_residual_counterexample :
    validRecord badRec9 = false
    ∧ badRec9 ∈ [badRec9]
    ∧ reconcileFiles [badRec9] [] = []
    ∧ countDataA badRec9 (reconcileFiles [badRec9] []) = 0 := by decide
